import Mathlib

/-!
# Progress bar (`progress/bar.go`): sampler and renderer

A shallow embedding of `src/progress/bar.go` and theorems about it.

Conventions of the embedding
* `int64` and `int` values are `Int`; where the source can overflow
  (`b.maxValue-b.currentValue`, `... * time.Second`) the result is wrapped
  with `wrapInt64`.
* `time.Time` is an `Int`: the instant in nanoseconds counted from Go's zero
  `Time`, so `IsZero` is `t = 0`. `time.Duration` is an `Int` of nanoseconds.
  `Time.Sub` saturates at the `int64` bounds as in package `time`.
* Every `time.Now()` in `Set` is a separate argument (`tStop`, `tSince`,
  `tAppend`), in source order.
* A Go `string` is its list of bytes (`GoString`); `len` is `List.length`.
* `float64` arithmetic is taken over exact rationals, with the two infinities
  and NaN explicit (`F64`).
* A Go panic is `none`.
-/

namespace progress

/-! ## Package `time` -/

/-- An instant, in nanoseconds since the zero `Time`. -/
abbrev Time := Int

/-- A `time.Duration`, in nanoseconds. -/
abbrev Duration := Int

def Nanosecond : Duration := 1
def Second : Duration := 1000000000
def Minute : Duration := 60 * Second
def Hour : Duration := 60 * Minute

def minDuration : Duration := -(2 ^ 63)
def maxDuration : Duration := 2 ^ 63 - 1

/-- The method `Time.IsZero`. -/
def Time.IsZero (t : Time) : Prop := t = 0

instance (t : Time) : Decidable (Time.IsZero t) := by
  unfold Time.IsZero; exact inferInstance

/-- The method `t.Sub(u)`: the difference, saturated to the range of a `Duration`. -/
def Time.Sub (t u : Time) : Duration :=
  if t - u < minDuration then minDuration
  else if t - u > maxDuration then maxDuration
  else t - u

/-- The function `time.Since(t)`, which is `time.Now().Sub(t)`; `now` is the clock reading. -/
def Time.Since (now t : Time) : Duration := Time.Sub now t

/-- The conversion to `int64` of an integer computed without bound: wrap-around. -/
def wrapInt64 (x : Int) : Int := (x + 2 ^ 63) % 2 ^ 64 - 2 ^ 63

def lessThanHalf (x y : Duration) : Bool := x + x < y

/-- The method `d.Round(m)`: to the nearest multiple of `m`, halves away from
zero, saturating on overflow. Go's `%` is the truncated remainder. -/
def Duration.Round (d m : Duration) : Duration :=
  if m ≤ 0 then d
  else
    let r := Int.tmod d m
    if d < 0 then
      let r := -r
      if lessThanHalf r m then d + r
      else
        let d1 := wrapInt64 (d - m + r)
        if d1 < d then d1 else minDuration
    else
      if lessThanHalf r m then d - r
      else
        let d1 := wrapInt64 (d + m - r)
        if d1 > d then d1 else maxDuration

/-! ## Strings -/

/-- A Go string: its bytes. -/
abbrev GoString := List UInt8

/-- The bytes of a literal made of ASCII characters. -/
def ascii (s : String) : GoString := s.data.map (fun c => c.toNat.toUInt8)

/-- The decimal digits of `v` (`"0"` for zero). -/
def decimal (v : Nat) : GoString := (Nat.toDigits 10 v).map (fun c => c.toNat.toUInt8)

/-- The number of characters of a string: its bytes that are not UTF-8
continuation bytes (`10xxxxxx`). -/
def charCount (s : GoString) : Nat := (s.filter (fun c => c < 0x80 || 0xC0 ≤ c)).length

/-- The function `strings.Repeat`, which panics on a negative count. Limits on
the size of the result are not modelled. -/
def strings.Repeat (s : GoString) (count : Int) : Option GoString :=
  if count < 0 then none else some (List.replicate count.toNat s).flatten

/-- The glyph `▕` (U+2595) in UTF-8. -/
def glyphLeft : GoString := [0xE2, 0x96, 0x95]
/-- The glyph `█` (U+2588) in UTF-8. -/
def glyphFull : GoString := [0xE2, 0x96, 0x88]
/-- The glyph `▏` (U+258F) in UTF-8. -/
def glyphRight : GoString := [0xE2, 0x96, 0x8F]

/-! ### `time.Duration.String` -/

/-- The loop of `fmtFrac`: `i` digits left to peel off `v`, `pr` whether a
non-zero digit was met, `buf` the text written so far (it grows at the front). -/
def fmtFracLoop : Nat → Nat → Bool → GoString → GoString × Nat × Bool
  | 0, v, pr, buf => (buf, v, pr)
  | i + 1, v, pr, buf =>
    let digit := v % 10
    let pr := pr || digit != 0
    let buf := if pr then (48 + digit).toUInt8 :: buf else buf
    fmtFracLoop i (v / 10) pr buf

/-- The helper `fmtFrac` of package `time`: writes the fraction of
`v / 10^prec` in front of `buf`, without trailing zeros, and returns
`v / 10^prec`. -/
def fmtFrac (buf : GoString) (v : Nat) (prec : Nat) : GoString × Nat :=
  match fmtFracLoop prec v false buf with
  | (buf, v, pr) => (if pr then 46 :: buf else buf, v)

/-- The helper `fmtInt` of package `time`: writes `v` in decimal in front of `buf`. -/
def fmtInt (buf : GoString) (v : Nat) : GoString := decimal v ++ buf

/-- The method `time.Duration.String`, as `Duration.format` builds it from the
last byte to the first. -/
def Duration.String (d : Duration) : GoString :=
  let u := d.natAbs
  let body : GoString :=
    if u < 1000000000 then
      if u = 0 then ascii "0s"
      else if u < 1000 then
        match fmtFrac (ascii "ns") u 0 with
        | (w, u) => fmtInt w u
      else if u < 1000000 then
        match fmtFrac ([0xC2, 0xB5] ++ ascii "s") u 3 with
        | (w, u) => fmtInt w u
      else
        match fmtFrac (ascii "ms") u 6 with
        | (w, u) => fmtInt w u
    else
      match fmtFrac (ascii "s") u 9 with
      | (w, u) =>
        let w := fmtInt w (u % 60)
        let u := u / 60
        if u > 0 then
          let w := fmtInt (ascii "m" ++ w) (u % 60)
          let u := u / 60
          if u > 0 then fmtInt (ascii "h" ++ w) u else w
        else w
  if d < 0 then ascii "-" ++ body else body

/-- The function `formatDuration`. -/
def formatDuration (d : Duration) : GoString :=
  if d ≥ 100 * Hour then ascii "99h+"
  else if d ≥ Hour then Duration.String (Duration.Round d Minute)
  else Duration.String (Duration.Round d Second)

/-! ## The data model -/

structure bucket where
  updated : Time
  value : Int
deriving DecidableEq, Repr

structure Bar where
  message : GoString
  messageWidth : Int
  maxValue : Int
  initialValue : Int
  currentValue : Int
  started : Time
  stopped : Time
  maxBuckets : Int
  buckets : List bucket
deriving DecidableEq, Repr

/-- The constructor `NewBar`; `now` is the reading of `time.Now()`. The fields
`stopped` and `buckets` are left at their zero values. -/
def NewBar (message : GoString) (maxValue initialValue : Int) (now : Time) : Bar :=
  { message := message
    messageWidth := -1
    maxValue := maxValue
    initialValue := initialValue
    currentValue := initialValue
    started := now
    stopped := 0
    maxBuckets := 10
    buckets := [] }

/-! ## The sampler -/

/-- The method `Set`. Its three clock readings are, in source order, `tStop`
(the `time.Now()` stored in `stopped`), `tSince` (the one inside `time.Since`,
read only when there is a bucket) and `tAppend` (the one stored in the new
bucket). The last bucket is read only when `len(b.buckets) != 0`, so the
default of `getLastD` is never used. -/
def Bar.Set (b : Bar) (value : Int) (tStop tSince tAppend : Time) : Bar :=
  let value := if value ≥ b.maxValue then b.maxValue else value
  let b := { b with currentValue := value }
  let b := if b.currentValue ≥ b.maxValue then { b with stopped := tStop } else b
  if b.buckets.length = 0 ∨
      Time.Since tSince (b.buckets.getLastD ⟨0, 0⟩).updated > Second then
    let b := { b with buckets := b.buckets ++ [{ updated := tAppend, value := value }] }
    if (b.buckets.length : Int) > b.maxBuckets then
      { b with buckets := b.buckets.drop 1 }
    else b
  else b

/-- One call of `Set`: its argument and the clock readings it takes. -/
structure SetCall where
  value : Int
  tStop : Time
  tSince : Time
  tAppend : Time
deriving DecidableEq, Repr

/-- A call whose three clock readings are the same instant `now`. -/
def callAt (value : Int) (now : Time) : SetCall := ⟨value, now, now, now⟩

def Bar.call (b : Bar) (c : SetCall) : Bar := b.Set c.value c.tStop c.tSince c.tAppend

/-- The state after a sequence of `Set` calls. -/
def Bar.run (b : Bar) : List SetCall → Bar
  | [] => b
  | c :: cs => (b.call c).run cs

/-- The states a bar goes through during a sequence of calls, the first one included. -/
def Bar.trace (b : Bar) : List SetCall → List Bar
  | [] => [b]
  | c :: cs => b :: (b.call c).trace cs

/-- The method `percent`; `maxValue > 0` keeps the quotient finite. -/
def Bar.percent (b : Bar) : ℚ :=
  if b.maxValue > 0 then (b.currentValue : ℚ) / (b.maxValue : ℚ) * 100 else 0

/-! ## `float64` -/

/-- A `float64` value, finite values taken exactly. The sign of a zero is not
kept: the source never divides by a value that can be a negative zero (its
divisors are `Duration.Seconds()` results and a rate tested `> 0`). -/
inductive F64 where
  | fin (q : ℚ)
  | posInf
  | negInf
  | nan
deriving DecidableEq

/-- The quotient `x / y` of IEEE 754, a zero divisor being `+0`. -/
def F64.div : F64 → F64 → F64
  | .nan, _ => .nan
  | _, .nan => .nan
  | .fin a, .fin b =>
    if b ≠ 0 then .fin (a / b)
    else if a > 0 then .posInf
    else if a < 0 then .negInf
    else .nan
  | .fin _, .posInf => .fin 0
  | .fin _, .negInf => .fin 0
  | .posInf, .fin b => if b ≥ 0 then .posInf else .negInf
  | .negInf, .fin b => if b ≥ 0 then .negInf else .posInf
  | .posInf, .posInf => .nan
  | .posInf, .negInf => .nan
  | .negInf, .posInf => .nan
  | .negInf, .negInf => .nan

/-- The test `x > 0`. -/
def F64.isPos : F64 → Bool
  | .fin q => decide (q > 0)
  | .posInf => true
  | .negInf => false
  | .nan => false

/-- Truncation toward zero. -/
def truncQ (x : ℚ) : Int := Int.tdiv x.num x.den

/-- The conversion `int64(x)` (and `int(x)`, 64 bits wide): truncation toward
zero when the result fits; otherwise Go leaves the result to the
implementation, here `undef x`. -/
def F64.toInt64 (undef : F64 → Int) (x : F64) : Int :=
  match x with
  | .fin q =>
    if -(2 ^ 63) ≤ truncQ q ∧ truncQ q ≤ 2 ^ 63 - 1 then truncQ q else undef x
  | _ => undef x

/-- The method `d.Seconds()`. -/
def Duration.Seconds (d : Duration) : F64 := .fin ((d : ℚ) / 1000000000)

/-- The method `rate`. -/
def Bar.rate (b : Bar) : F64 :=
  if ¬ Time.IsZero b.stopped then
    let elapsed := Duration.Round (Time.Sub b.stopped b.started) Second
    F64.div (.fin ((b.currentValue : ℚ) - (b.initialValue : ℚ))) (Duration.Seconds elapsed)
  else
    match b.buckets with
    | [] => .fin 0
    | [only] =>
      F64.div (.fin ((wrapInt64 (only.value - b.initialValue) : Int) : ℚ))
        (Duration.Seconds (Time.Sub only.updated b.started))
    | first :: rest =>
      let last := rest.getLastD first
      F64.div (.fin ((last.value : ℚ) - (first.value : ℚ)))
        (Duration.Seconds (Time.Sub last.updated first.updated))

/-! ## The renderer -/

/-- What `String` takes from outside `bar.go`.
* `GetSize`: the width reported by `term.GetSize`, `none` when it returns an error;
* `HumanBytes`: the function `format.HumanBytes`;
* `TrimSpace`: the function `strings.TrimSpace`;
* `undef`: the result of converting to an integer a `float64` that does not fit. -/
structure Env where
  GetSize : Option Int
  HumanBytes : Int → GoString
  TrimSpace : GoString → GoString
  undef : F64 → Int

/-- The width `String` lays the line out for: 80 when the query fails. -/
def Env.termWidth (env : Env) : Int :=
  match env.GetSize with
  | some w => w
  | none => 80

/-- The verb `%3.0f` followed by `%%`: `x` rounded to an integer, halves to
even, a minus sign for a negative `x`, padded with spaces on the left to 3
bytes, then a percent sign. -/
def fmtPercent (x : ℚ) : GoString :=
  let a := |x|
  let fl := a.floor.toNat
  let fr := a - (fl : ℚ)
  let r := if fr > 1 / 2 ∨ (fr = 1 / 2 ∧ fl % 2 = 1) then fl + 1 else fl
  let text := (if x < 0 then ascii "-" else []) ++ decimal r
  List.replicate (3 - text.length) (32 : UInt8) ++ text ++ ascii "%"

/-- The builder `pre` of `String`: the message block and the percentage. -/
def Bar.pre (b : Bar) (env : Env) : Option GoString := do
  let mut pre : GoString := []
  if b.message.length > 0 then
    let mut message := env.TrimSpace b.message
    if b.messageWidth > 0 ∧ (message.length : Int) > b.messageWidth then
      message := message.take b.messageWidth.toNat
    pre := pre ++ message
    let padding := b.messageWidth - (pre.length : Int)
    if padding > 0 then
      pre := pre ++ (← strings.Repeat (ascii " ") padding)
    pre := pre ++ ascii " "
  pre := pre ++ fmtPercent b.percent
  return pre

/-- The duration `remaining` of `String`. -/
def Bar.remaining (b : Bar) (env : Env) : Duration :=
  if b.rate.isPos then
    wrapInt64 (F64.toInt64 env.undef
      (F64.div (.fin ((wrapInt64 (b.maxValue - b.currentValue) : Int) : ℚ)) b.rate) * Second)
  else 0

/-- The builder `suf` of `String`: the byte counts, the rate and the time left. -/
def Bar.suf (b : Bar) (env : Env) : Option GoString := do
  let mut suf : GoString := []
  if Time.IsZero b.stopped then
    let curValue := env.HumanBytes b.currentValue
    suf := suf ++ (← strings.Repeat (ascii " ") (6 - (curValue.length : Int)))
    suf := suf ++ curValue
    suf := suf ++ ascii "/"
    let maxValue := env.HumanBytes b.maxValue
    suf := suf ++ (← strings.Repeat (ascii " ") (6 - (maxValue.length : Int)))
    suf := suf ++ maxValue
  else
    let maxValue := env.HumanBytes b.maxValue
    suf := suf ++ (← strings.Repeat (ascii " ") (6 - (maxValue.length : Int)))
    suf := suf ++ maxValue
    suf := suf ++ (← strings.Repeat (ascii " ") 7)
  let rate := b.rate
  if Time.IsZero b.stopped then
    suf := suf ++ ascii ", "
    let humanRate := env.HumanBytes (F64.toInt64 env.undef rate)
    suf := suf ++ (← strings.Repeat (ascii " ") (6 - (humanRate.length : Int)))
    suf := suf ++ humanRate
    suf := suf ++ ascii "/s"
  else
    suf := suf ++ (← strings.Repeat (ascii " ") 10)
  if Time.IsZero b.stopped then
    suf := suf ++ ascii ", "
    let humanRemaining := formatDuration (b.remaining env)
    suf := suf ++ (← strings.Repeat (ascii " ") (6 - (humanRemaining.length : Int)))
    suf := suf ++ humanRemaining
  else
    suf := suf ++ (← strings.Repeat (ascii " ") 8)
  return suf

/-- The builder `mid` of `String`, for the interior width `f` and the filled width `n`. -/
def midOf (f n : Int) : Option GoString := do
  let mut mid : GoString := []
  mid := mid ++ glyphLeft
  if n > 0 then
    mid := mid ++ (← strings.Repeat glyphFull n)
  if f - n > 0 then
    mid := mid ++ (← strings.Repeat (ascii " ") (f - n))
  mid := mid ++ glyphRight
  return mid

/-- The interior width `f` of `String`, from the lengths of `pre` and `suf`. -/
def interior (env : Env) (pre suf : GoString) : Int :=
  env.termWidth - (pre.length : Int) - (suf.length : Int) - 3

/-- The filled width `n` of `String`. -/
def Bar.filled (b : Bar) (env : Env) (f : Int) : Int :=
  F64.toInt64 env.undef (.fin ((f : ℚ) * b.percent / 100))

/-- The method `String`. -/
def Bar.String (b : Bar) (env : Env) : Option GoString := do
  let pre ← b.pre env
  let suf ← b.suf env
  let f := interior env pre suf
  let n := b.filled env f
  let mid ← midOf f n
  return pre ++ mid ++ suf

/-! ## Predicates used by the theorems -/

/-- Consecutive entries are more than one second apart. -/
def Spaced (l : List bucket) : Prop :=
  List.Chain' (fun x y => x.updated + Second < y.updated) l

/-- The text ends with the letter `s`. -/
def EndsInS (l : GoString) : Prop := ∃ p, l = p ++ [0x73]

/-- The number of time units in the text of a duration: its letters `h`, `m`
and `s` (the text of a whole number of seconds has no other unit letters). -/
def unitCount (s : GoString) : Nat :=
  (s.filter (fun c => c == 0x68 || c == 0x6D || c == 0x73)).length

/-! ## Sample inputs -/

/-- A byte humanizer that writes the count in plain bytes, as in `"1000 B"`. -/
def plainBytes (n : Int) : GoString :=
  (if n < 0 then ascii "-" else []) ++ decimal n.natAbs ++ ascii " B"

/-- An environment with an 80-column terminal and the humanizer `plainBytes`.
`TrimSpace` is the identity, which is what `strings.TrimSpace` does on a
message without white space at its ends; a conversion that does not fit gives
the least `int64`, as on amd64. -/
def env80 : Env :=
  { GetSize := some 80
    HumanBytes := plainBytes
    TrimSpace := id
    undef := fun _ => -(2 ^ 63) }

/-- A bar of `maxValue` 4201 that received `Set(1)` one second after its
start: its rate is 1 unit per second and 4200 seconds remain. -/
def slowBar : Bar := (NewBar [] 4201 0 Second).Set 1 (2 * Second) (2 * Second) (2 * Second)

/-- A bar that has completed: `Set(10)` at instant 2 on a fresh bar of `maxValue` 10. -/
def completedBar : Bar := (NewBar [] 10 0 1).Set 10 2 2 2

/-- Three calls at instants 2 s, 4 s and 4.5 s: the first two are sampled, the third is throttled. -/
def sampleCalls : List SetCall :=
  [callAt 10 (2 * Second), callAt 20 (4 * Second), callAt 30 (4 * Second + 500000000)]

/-- A bar whose first `Set` read the same instant as `NewBar` did. -/
def tiedBar : Bar := (NewBar [] 100 0 5).Set 10 5 5 5

theorem Set_maxValue (b : Bar) (v : Int) (t1 t2 t3 : Time) :
    (b.Set v t1 t2 t3).maxValue = b.maxValue := by
  unfold Bar.Set
  simp only []
  split_ifs <;> rfl

theorem Set_maxBuckets (b : Bar) (v : Int) (t1 t2 t3 : Time) :
    (b.Set v t1 t2 t3).maxBuckets = b.maxBuckets := by
  unfold Bar.Set
  simp only []
  split_ifs <;> rfl

theorem Set_currentValue (b : Bar) (v : Int) (t1 t2 t3 : Time) :
    (b.Set v t1 t2 t3).currentValue = if v ≥ b.maxValue then b.maxValue else v := by
  unfold Bar.Set
  simp only []
  split_ifs <;> rfl

theorem Set_stopped (b : Bar) (v : Int) (t1 t2 t3 : Time) :
    (b.Set v t1 t2 t3).stopped = if v ≥ b.maxValue then t1 else b.stopped := by
  unfold Bar.Set
  simp only []
  split_ifs <;> first | rfl | (exfalso; omega)

theorem Set_buckets (b : Bar) (v : Int) (t1 t2 t3 : Time) :
    (b.Set v t1 t2 t3).buckets =
      if b.buckets.length = 0 ∨
          Time.Since t2 (b.buckets.getLastD ⟨0, 0⟩).updated > Second then
        if ((b.buckets ++ [bucket.mk t3 (if v ≥ b.maxValue then b.maxValue else v)]).length : Int)
            > b.maxBuckets then
          (b.buckets ++ [bucket.mk t3 (if v ≥ b.maxValue then b.maxValue else v)]).drop 1
        else b.buckets ++ [bucket.mk t3 (if v ≥ b.maxValue then b.maxValue else v)]
      else b.buckets := by
  unfold Bar.Set
  simp only []
  split_ifs <;> rfl

theorem Sub_gt_Second (t u : Time) : Time.Sub t u > Second ↔ u + Second < t := by
  unfold Time.Sub minDuration maxDuration Second
  dsimp only [Time, Duration] at *
  split_ifs <;> constructor <;> intro h <;> omega

theorem run_maxValue (b : Bar) (cs : List SetCall) : (b.run cs).maxValue = b.maxValue := by
  induction cs generalizing b with
  | nil => rfl
  | cons c cs ih =>
    show ((b.call c).run cs).maxValue = b.maxValue
    rw [ih]; exact Set_maxValue ..

theorem trace_eq_cons (b : Bar) (cs : List SetCall) :
    b.trace cs = b :: (b.trace cs).tail := by
  cases cs <;> rfl

/-! ## The stop marker -/

/-- C1: for every state and every value `v ≥ maxValue`, after `Set(v)` the
current value equals `maxValue` and the stopped timestamp is set, the clock
reading stored in it being a real instant (not the zero `Time`). -/
theorem Set_reaches_max (b : Bar) (v : Int) (tStop tSince tAppend : Time)
    (hv : v ≥ b.maxValue) (hclock : ¬ Time.IsZero tStop) :
    (b.Set v tStop tSince tAppend).currentValue = (b.Set v tStop tSince tAppend).maxValue ∧
      ¬ Time.IsZero (b.Set v tStop tSince tAppend).stopped := by
  rw [Set_currentValue, Set_stopped, Set_maxValue, if_pos hv, if_pos hv]
  exact ⟨rfl, hclock⟩

theorem Set_reaches_max_witness :
    ((1500 : Int) ≥ (NewBar [] 1000 0 1).maxValue ∧ ¬ Time.IsZero 7) ∧
      (((NewBar [] 1000 0 1).Set 1500 7 7 7).currentValue =
          ((NewBar [] 1000 0 1).Set 1500 7 7 7).maxValue ∧
        ¬ Time.IsZero ((NewBar [] 1000 0 1).Set 1500 7 7 7).stopped) :=
  ⟨by decide, Set_reaches_max (NewBar [] 1000 0 1) 1500 7 7 7 (by decide) (by decide)⟩

/-- C2 fails as stated: the completed bar has its stopped timestamp set (to 2),
and a further `Set(10)` at the later instant 3 moves it to 3. -/
theorem Set_stopped_not_frozen :
    ¬ Time.IsZero completedBar.stopped ∧ completedBar.stopped < 3 ∧
      (completedBar.Set 10 3 3 3).stopped ≠ completedBar.stopped := by
  decide

/-- C2, amended: a `Set(v)` with `v < maxValue` leaves the stopped timestamp
as it was, and a `Set(v)` with `v ≥ maxValue` stores the clock reading in it,
whether or not it was set before. -/
theorem Set_stopped_cases (b : Bar) (v : Int) (tStop tSince tAppend : Time) :
    (v < b.maxValue → (b.Set v tStop tSince tAppend).stopped = b.stopped) ∧
      (v ≥ b.maxValue → (b.Set v tStop tSince tAppend).stopped = tStop) := by
  rw [Set_stopped]
  constructor
  · intro h; rw [if_neg (by omega)]
  · intro h; rw [if_pos h]

theorem Set_stopped_cases_witness :
    ((4 : Int) < completedBar.maxValue ∧ (10 : Int) ≥ completedBar.maxValue) ∧
      (completedBar.Set 4 3 3 3).stopped = completedBar.stopped ∧
      (completedBar.Set 10 3 3 3).stopped = 3 :=
  ⟨by decide, (Set_stopped_cases completedBar 4 3 3 3).1 (by decide),
    (Set_stopped_cases completedBar 10 3 3 3).2 (by decide)⟩

/-! ## The sample history -/

theorem Set_buckets_bound (b : Bar) (v : Int) (t1 t2 t3 : Time)
    (hmax : b.maxBuckets = 10) (hlen : b.buckets.length ≤ 10) :
    (b.Set v t1 t2 t3).buckets.length ≤ 10 := by
  rw [Set_buckets]
  generalize (if v ≥ b.maxValue then b.maxValue else v) = w
  split_ifs with h1 h2
  · simp only [List.length_drop, List.length_append, List.length_singleton]; omega
  · simp only [List.length_append, List.length_singleton, hmax] at h2 ⊢; omega
  · exact hlen

theorem run_buckets_bound (b : Bar) (cs : List SetCall)
    (hmax : b.maxBuckets = 10) (hlen : b.buckets.length ≤ 10) :
    (b.run cs).maxBuckets = 10 ∧ (b.run cs).buckets.length ≤ 10 := by
  induction cs generalizing b with
  | nil => exact ⟨hmax, hlen⟩
  | cons c cs ih =>
    exact ih (b.call c) ((Set_maxBuckets ..).trans hmax) (Set_buckets_bound _ _ _ _ _ hmax hlen)

/-- C3: in every state reached from `NewBar` by any sequence of `Set` calls
(any values, any clock readings) the history holds at most 10 entries. -/
theorem history_at_most_ten (message : GoString) (maxValue initialValue : Int) (start : Time)
    (cs : List SetCall) :
    ((NewBar message maxValue initialValue start).run cs).buckets.length ≤ 10 :=
  (run_buckets_bound _ cs rfl (by simp [NewBar])).2

theorem Set_spaced (b : Bar) (v : Int) (t1 t2 t3 : Time) (hclock : t2 ≤ t3)
    (h : Spaced b.buckets) : Spaced (b.Set v t1 t2 t3).buckets := by
  rw [Set_buckets]
  generalize (if v ≥ b.maxValue then b.maxValue else v) = w
  have happ : (b.buckets.length = 0 ∨
      Time.Since t2 (b.buckets.getLastD ⟨0, 0⟩).updated > Second) →
      Spaced (b.buckets ++ [bucket.mk t3 w]) := by
    intro hc
    unfold Spaced
    rw [List.chain'_append]
    refine ⟨h, List.chain'_singleton _, ?_⟩
    intro x hx y hy
    simp only [List.head?_cons, Option.mem_def, Option.some.injEq] at hy
    subst hy
    rcases hc with hc | hc
    · rw [List.length_eq_zero] at hc
      rw [hc] at hx
      simp at hx
    · have hl : b.buckets.getLastD ⟨0, 0⟩ = x := by
        rw [List.getLastD_eq_getLast?]
        rw [Option.mem_def] at hx
        rw [hx]; rfl
      rw [hl] at hc
      have := (Sub_gt_Second t2 x.updated).1 hc
      show x.updated + Second < t3
      dsimp only [Time, Duration] at *
      omega
  split_ifs with h1 h2
  · rw [List.drop_one]; exact List.Chain'.tail (happ h1)
  · exact happ h1
  · exact h

theorem run_spaced (b : Bar) (cs : List SetCall) (hclock : ∀ c ∈ cs, c.tSince ≤ c.tAppend)
    (h : Spaced b.buckets) : Spaced (b.run cs).buckets := by
  induction cs generalizing b with
  | nil => exact h
  | cons c cs ih =>
    exact ih (b.call c) (fun c' hc' => hclock c' (List.mem_cons_of_mem _ hc'))
      (Set_spaced _ _ _ _ _ (hclock c (List.mem_cons_self _ _)) h)

/-- C4: in every state reached from `NewBar` by any sequence of `Set` calls,
the timestamps of the history are non-decreasing and each entry is at least
one second later than the entry before it. Within one call the clock does not
go back between the throttle test and the append (`tSince ≤ tAppend`); between
calls the readings are arbitrary. -/
theorem history_spaced (message : GoString) (maxValue initialValue : Int) (start : Time)
    (cs : List SetCall) (hclock : ∀ c ∈ cs, c.tSince ≤ c.tAppend) :
    List.Chain' (fun x y => x.updated ≤ y.updated ∧ x.updated + Second ≤ y.updated)
      ((NewBar message maxValue initialValue start).run cs).buckets := by
  have h := run_spaced (NewBar message maxValue initialValue start) cs hclock
    (by simp [NewBar, Spaced])
  refine List.Chain'.imp ?_ h
  intro x y hxy
  have : (0 : Int) < Second := by decide
  dsimp only [Time, Duration] at *
  constructor <;> omega


theorem history_spaced_witness :
    (∀ c ∈ sampleCalls, c.tSince ≤ c.tAppend) ∧
      List.Chain' (fun x y => x.updated ≤ y.updated ∧ x.updated + Second ≤ y.updated)
        ((NewBar [] 100 0 Second).run sampleCalls).buckets :=
  ⟨by decide, history_spaced [] 100 0 Second sampleCalls (by decide)⟩

/-! ## The current value -/

/-- C7 fails as stated: `NewBar` copies `initialValue` into `currentValue`
without comparing it to `maxValue`, so the fresh bar of `NewBar("", 5, 9)` has
`currentValue = 9 > 5 = maxValue`. -/
theorem fresh_bar_above_max :
    (0 : Int) ≤ 5 ∧ ¬ ((NewBar [] 5 9 1).run []).currentValue ≤ ((NewBar [] 5 9 1).run []).maxValue := by
  decide

theorem run_currentValue_le (b : Bar) (cs : List SetCall)
    (h : cs ≠ [] ∨ b.currentValue ≤ b.maxValue) :
    (b.run cs).currentValue ≤ (b.run cs).maxValue := by
  induction cs generalizing b with
  | nil =>
    rcases h with h | h
    · exact absurd rfl h
    · exact h
  | cons c cs ih =>
    apply ih (b.call c)
    right
    show (b.Set _ _ _ _).currentValue ≤ (b.Set _ _ _ _).maxValue
    rw [Set_currentValue, Set_maxValue]
    split_ifs with hv
    · exact le_refl _
    · exact le_of_lt (not_le.1 hv)

/-- C7, amended: in every state reached from `NewBar(message, maxValue,
initialValue)` by at least one `Set` call, and in every reachable state at all
when `initialValue ≤ maxValue`, `currentValue ≤ maxValue`. -/
theorem currentValue_le_maxValue (message : GoString) (maxValue initialValue : Int)
    (start : Time) (cs : List SetCall) (h : cs ≠ [] ∨ initialValue ≤ maxValue) :
    ((NewBar message maxValue initialValue start).run cs).currentValue ≤ maxValue := by
  have := run_currentValue_le (NewBar message maxValue initialValue start) cs h
  rwa [run_maxValue] at this

theorem currentValue_le_maxValue_witness :
    ([callAt 7 3] ≠ [] ∨ (9 : Int) ≤ 5) ∧
      ((NewBar [] 5 9 1).run [callAt 7 3]).currentValue ≤ 5 :=
  ⟨by decide, currentValue_le_maxValue [] 5 9 1 [callAt 7 3] (by decide)⟩

/-- C8 fails as stated: in the fresh bar of `NewBar("", 5, 5)` the current
value equals `maxValue`, yet the stopped timestamp is not set; only `Set`
writes it. -/
theorem fresh_bar_at_max_not_stopped :
    ¬ (¬ Time.IsZero ((NewBar [] 5 5 1).run []).stopped ↔
        ∃ s ∈ (NewBar [] 5 5 1).trace [], s.currentValue = s.maxValue) := by
  decide

theorem run_stopped_iff (b : Bar) (cs : List SetCall) (hclock : ∀ c ∈ cs, ¬ Time.IsZero c.tStop) :
    ¬ Time.IsZero (b.run cs).stopped ↔
      (¬ Time.IsZero b.stopped ∨ ∃ s ∈ (b.trace cs).tail, s.currentValue = s.maxValue) := by
  induction cs generalizing b with
  | nil => simp [Bar.run, Bar.trace]
  | cons c cs ih =>
    have hc := hclock c (List.mem_cons_self _ _)
    have ih' := ih (b.call c) (fun c' hc' => hclock c' (List.mem_cons_of_mem _ hc'))
    show ¬ Time.IsZero ((b.call c).run cs).stopped ↔
      (¬ Time.IsZero b.stopped ∨ ∃ s ∈ (b.call c).trace cs, s.currentValue = s.maxValue)
    rw [ih', trace_eq_cons (b.call c) cs]
    simp only [List.tail_cons, List.mem_cons, exists_eq_or_imp]
    have hstep : ¬ Time.IsZero (b.call c).stopped ↔
        (¬ Time.IsZero b.stopped ∨ (b.call c).currentValue = (b.call c).maxValue) := by
      unfold Bar.call
      rw [Set_stopped, Set_currentValue, Set_maxValue]
      split_ifs with hv
      · simp [hc]
      · have : c.value ≠ b.maxValue := fun e => hv (by rw [e])
        simp [this]
    rw [hstep]
    tauto

/-- C8, amended: in every state reached from `NewBar` by a sequence of `Set`
calls (each reading a real instant from the clock), the stopped timestamp is
set if and only if `currentValue == maxValue` has held in the state left by
one of the `Set` calls made so far; the freshly constructed state does not
count. -/
theorem stopped_iff_reached_by_Set (message : GoString) (maxValue initialValue : Int)
    (start : Time) (cs : List SetCall) (hclock : ∀ c ∈ cs, ¬ Time.IsZero c.tStop) :
    ¬ Time.IsZero ((NewBar message maxValue initialValue start).run cs).stopped ↔
      ∃ s ∈ ((NewBar message maxValue initialValue start).trace cs).tail,
        s.currentValue = s.maxValue := by
  rw [run_stopped_iff _ cs hclock]
  simp [NewBar, Time.IsZero]

theorem stopped_iff_reached_by_Set_witness :
    (∀ c ∈ [callAt 3 2, callAt 5 4, callAt 1 6], ¬ Time.IsZero c.tStop) ∧
      (¬ Time.IsZero ((NewBar [] 5 0 1).run [callAt 3 2, callAt 5 4, callAt 1 6]).stopped ↔
        ∃ s ∈ ((NewBar [] 5 0 1).trace [callAt 3 2, callAt 5 4, callAt 1 6]).tail,
          s.currentValue = s.maxValue) :=
  ⟨by decide, stopped_iff_reached_by_Set [] 5 0 1 [callAt 3 2, callAt 5 4, callAt 1 6] (by decide)⟩

/-! ## The percentage -/

theorem percent_range_of_bounds (b : Bar) (hmax : 0 < b.maxValue) (h0 : 0 ≤ b.currentValue)
    (h1 : b.currentValue ≤ b.maxValue) : 0 ≤ b.percent ∧ b.percent ≤ 100 := by
  unfold Bar.percent
  rw [if_pos hmax]
  have hm : (0 : ℚ) < (b.maxValue : ℚ) := by exact_mod_cast hmax
  have hc : (0 : ℚ) ≤ (b.currentValue : ℚ) := by exact_mod_cast h0
  have hle : (b.currentValue : ℚ) ≤ (b.maxValue : ℚ) := by exact_mod_cast h1
  constructor
  · positivity
  · have : (b.currentValue : ℚ) / (b.maxValue : ℚ) ≤ 1 := (div_le_one hm).2 hle
    linarith

theorem charCount_append (s t : GoString) : charCount (s ++ t) = charCount s + charCount t := by
  simp [charCount]

theorem charCount_repeat_space (k : Nat) :
    charCount (List.replicate k (ascii " ")).flatten = k := by
  induction k with
  | zero => rfl
  | succ k ih =>
    rw [List.replicate_succ, List.flatten_cons, charCount_append, ih]
    have : charCount (ascii " ") = 1 := by decide
    omega

theorem charCount_repeat_full (k : Nat) :
    charCount (List.replicate k glyphFull).flatten = k := by
  induction k with
  | zero => rfl
  | succ k ih =>
    rw [List.replicate_succ, List.flatten_cons, charCount_append, ih]
    have : charCount glyphFull = 1 := by decide
    omega

theorem truncQ_bounds (q : ℚ) (f : Int) (h0 : 0 ≤ q) (h1 : q ≤ (f : ℚ)) :
    0 ≤ truncQ q ∧ truncQ q ≤ f := by
  have hnum : 0 ≤ q.num := Rat.num_nonneg.2 h0
  have hden : (0 : Int) ≤ (q.den : Int) := Int.natCast_nonneg _
  have hfl : truncQ q = ⌊q⌋ := by
    unfold truncQ
    rw [Int.tdiv_eq_ediv hnum hden, Rat.floor_def]
  rw [hfl]
  constructor
  · exact Int.floor_nonneg.2 h0
  · have : (⌊q⌋ : ℚ) ≤ (f : ℚ) := le_trans (Int.floor_le q) h1
    exact_mod_cast this

theorem midOf_eq (f n : Int) (hn : 0 ≤ n) (hf : n ≤ f) :
    midOf f n = some (glyphLeft ++ (List.replicate n.toNat glyphFull).flatten ++
      (List.replicate (f - n).toNat (ascii " ")).flatten ++ glyphRight) := by
  unfold midOf strings.Repeat
  by_cases h1 : n > 0 <;> by_cases h2 : f - n > 0
  · have e1 : ¬ n < 0 := by omega
    have e2 : ¬ f - n < 0 := by omega
    simp [h1, h2, e1, e2]
  · have e1 : ¬ n < 0 := by omega
    have e3 : f - n = 0 := by omega
    simp [h1, e1, e3]
  · have e0 : n = 0 := by omega
    subst e0
    have e2 : ¬ f < 0 := by omega
    simp [h2, e2] at h2 ⊢
    simp [h2]
  · have e0 : n = 0 := by omega
    subst e0
    have e3 : f = 0 := by omega
    subst e3
    simp


/-- C5 fails as stated: for a fresh bar of `maxValue` 1000 on an 80-column
terminal the interior width is positive and the line has 79 characters, one
less than the terminal width. -/
theorem line_one_short_of_width :
    ((NewBar [] 1000 0 1).pre env80).isSome = true ∧
      (((NewBar [] 1000 0 1).pre env80).bind fun pre =>
        ((NewBar [] 1000 0 1).suf env80).map fun suf => decide (0 < interior env80 pre suf))
        = some true ∧
      ((NewBar [] 1000 0 1).String env80).map charCount = some 79 ∧
      env80.termWidth = 80 := by
  decide!

/-- C5, amended: whenever the interior width `f = terminalWidth - len(pre) -
len(suf) - 3` is positive, `percent()` lies in `[0, 100]` and `pre` and `suf`
hold one-byte characters only, `String` returns a line of exactly
`terminalWidth - 1` characters (each glyph counting as one): the column
reserved for a trailing space is left empty. The terminal width is an `int`. -/
theorem String_length (b : Bar) (env : Env) (pre suf : GoString)
    (hpre : b.pre env = some pre) (hsuf : b.suf env = some suf)
    (hW : env.termWidth ≤ 2 ^ 63 - 1)
    (hf : 0 < interior env pre suf)
    (hp : 0 ≤ b.percent ∧ b.percent ≤ 100)
    (hbytes : charCount pre = pre.length ∧ charCount suf = suf.length) :
    ∃ line, b.String env = some line ∧ (charCount line : Int) = env.termWidth - 1 := by
  obtain ⟨hp0, hp1⟩ := hp
  have hfq : (0 : ℚ) < ((interior env pre suf : Int) : ℚ) := by exact_mod_cast hf
  have hq0 : (0 : ℚ) ≤ ((interior env pre suf : Int) : ℚ) * b.percent / 100 := by positivity
  have hq1 : ((interior env pre suf : Int) : ℚ) * b.percent / 100
      ≤ ((interior env pre suf : Int) : ℚ) := by
    rw [div_le_iff₀ (by norm_num : (0 : ℚ) < 100)]
    exact mul_le_mul_of_nonneg_left hp1 (le_of_lt hfq)
  obtain ⟨hn0, hn1⟩ := truncQ_bounds _ _ hq0 hq1
  have hfW : interior env pre suf ≤ env.termWidth := by
    unfold interior; omega
  have hn : b.filled env (interior env pre suf)
      = truncQ (((interior env pre suf : Int) : ℚ) * b.percent / 100) := by
    unfold Bar.filled F64.toInt64
    simp only []
    rw [if_pos]
    constructor <;> omega
  have hmid := midOf_eq (interior env pre suf) (b.filled env (interior env pre suf))
    (by rw [hn]; exact hn0) (by rw [hn]; exact hn1)
  have hS : b.String env = some (pre ++ (glyphLeft ++
      (List.replicate (b.filled env (interior env pre suf)).toNat glyphFull).flatten ++
      (List.replicate (interior env pre suf - b.filled env (interior env pre suf)).toNat
        (ascii " ")).flatten ++ glyphRight) ++ suf) := by
    unfold Bar.String
    rw [hpre, hsuf]
    simp only [Option.bind_eq_bind, Option.some_bind, hmid, Option.pure_def]
  refine ⟨_, hS, ?_⟩
  · rw [← hn] at hn0 hn1
    simp only [charCount_append, charCount_repeat_full, charCount_repeat_space, hbytes.1,
      hbytes.2]
    have g1 : charCount glyphLeft = 1 := by decide
    have g2 : charCount glyphRight = 1 := by decide
    rw [g1, g2]
    unfold interior at hn0 hn1 ⊢
    push_cast
    rw [Int.toNat_of_nonneg hn0, Int.toNat_of_nonneg (by omega)]
    omega

theorem String_length_witness :
    ((NewBar [] 1000 0 1).pre env80 = some (ascii "  0%") ∧
        (NewBar [] 1000 0 1).suf env80 = some (ascii "   0 B/1000 B,    0 B/s,     0s") ∧
        env80.termWidth ≤ 2 ^ 63 - 1 ∧
        0 < interior env80 (ascii "  0%") (ascii "   0 B/1000 B,    0 B/s,     0s") ∧
        (0 ≤ (NewBar [] 1000 0 1).percent ∧ (NewBar [] 1000 0 1).percent ≤ 100) ∧
        (charCount (ascii "  0%") = (ascii "  0%").length ∧
          charCount (ascii "   0 B/1000 B,    0 B/s,     0s")
            = (ascii "   0 B/1000 B,    0 B/s,     0s").length)) ∧
      ∃ line, (NewBar [] 1000 0 1).String env80 = some line ∧
        (charCount line : Int) = env80.termWidth - 1 :=
  ⟨by decide!, String_length (NewBar [] 1000 0 1) env80 (ascii "  0%")
    (ascii "   0 B/1000 B,    0 B/s,     0s") (by decide!) (by decide!) (by decide)
    (by decide) (by decide!) (by decide)⟩

/-- C9, evaluated: with a humanizer whose text for `maxValue` has 9 bytes,
`String` panics on the negative repeat count `6 - 9`. -/
theorem String_panics_on_long_bytes :
    (env80.HumanBytes 1000000).length = 9 ∧
      strings.Repeat (ascii " ") (6 - ((env80.HumanBytes 1000000).length : Int)) = none ∧
      (NewBar [] 1000000 0 1).String env80 = none := by
  decide!

/-- C10, evaluated: a duration of 1h10m is rendered in 7 bytes with three
units, the padding count `6 - 7` is negative, and `String` panics on a running
bar with that much time left although every humanized count fits in 6 bytes. -/
theorem formatDuration_overflows_field :
    (0 : Int) ≤ 4200 * Second ∧
      formatDuration (4200 * Second) = ascii "1h10m0s" ∧
      (formatDuration (4200 * Second)).length = 7 ∧
      slowBar.remaining env80 = 4200 * Second ∧
      (env80.HumanBytes slowBar.currentValue).length ≤ 6 ∧
      (env80.HumanBytes slowBar.maxValue).length ≤ 6 ∧
      (env80.HumanBytes (F64.toInt64 env80.undef slowBar.rate)).length ≤ 6 ∧
      slowBar.String env80 = none := by
  decide!


/-! ## The text of a duration -/

theorem EndsInS.prepend {l : GoString} (h : EndsInS l) (q : GoString) : EndsInS (q ++ l) := by
  obtain ⟨p, rfl⟩ := h
  exact ⟨q ++ p, by simp⟩

theorem EndsInS.getLast? {l : GoString} (h : EndsInS l) : l.getLast? = some 0x73 := by
  obtain ⟨p, rfl⟩ := h
  exact List.getLast?_concat p

theorem fmtFracLoop_suffix (i v : Nat) (pr : Bool) (buf : GoString) :
    ∃ p, (fmtFracLoop i v pr buf).1 = p ++ buf := by
  induction i generalizing v pr buf with
  | zero => exact ⟨[], rfl⟩
  | succ i ih =>
    unfold fmtFracLoop
    simp only []
    split_ifs
    · obtain ⟨p, hp⟩ := ih (v / 10) (pr || v % 10 != 0) ((48 + v % 10).toUInt8 :: buf)
      exact ⟨p ++ [(48 + v % 10).toUInt8], by rw [hp]; simp⟩
    · exact ih _ _ _

theorem fmtFrac_suffix (buf : GoString) (v prec : Nat) :
    ∃ p, (fmtFrac buf v prec).1 = p ++ buf := by
  obtain ⟨p, hp⟩ := fmtFracLoop_suffix prec v false buf
  unfold fmtFrac
  rcases h : fmtFracLoop prec v false buf with ⟨w, u, pr⟩
  rw [h] at hp
  simp only [] at hp ⊢
  subst hp
  split_ifs
  · exact ⟨46 :: p, rfl⟩
  · exact ⟨p, rfl⟩

theorem fmtFrac_fmtInt_endsInS (buf : GoString) (v prec : Nat) (h : EndsInS buf) :
    EndsInS (match fmtFrac buf v prec with
      | (w, u) => fmtInt w u) := by
  obtain ⟨p, hp⟩ := fmtFrac_suffix buf v prec
  rcases hf : fmtFrac buf v prec with ⟨w, u⟩
  rw [hf] at hp
  simp only [] at hp ⊢
  subst hp
  exact (h.prepend p).prepend _

theorem Duration_String_endsInS (d : Duration) : EndsInS (Duration.String d) := by
  have hs : EndsInS (ascii "s") := ⟨[], by decide⟩
  have hns : EndsInS (ascii "ns") := ⟨ascii "n", by decide⟩
  have hus : EndsInS ([0xC2, 0xB5] ++ ascii "s") := ⟨[0xC2, 0xB5], by decide⟩
  have hms : EndsInS (ascii "ms") := ⟨ascii "m", by decide⟩
  have h0 : EndsInS (ascii "0s") := ⟨ascii "0", by decide⟩
  have body : EndsInS
      (if d.natAbs < 1000000000 then
        if d.natAbs = 0 then ascii "0s"
        else if d.natAbs < 1000 then
          match fmtFrac (ascii "ns") d.natAbs 0 with
          | (w, u) => fmtInt w u
        else if d.natAbs < 1000000 then
          match fmtFrac ([0xC2, 0xB5] ++ ascii "s") d.natAbs 3 with
          | (w, u) => fmtInt w u
        else
          match fmtFrac (ascii "ms") d.natAbs 6 with
          | (w, u) => fmtInt w u
      else
        match fmtFrac (ascii "s") d.natAbs 9 with
        | (w, u) =>
          let w := fmtInt w (u % 60)
          let u := u / 60
          if u > 0 then
            let w := fmtInt (ascii "m" ++ w) (u % 60)
            let u := u / 60
            if u > 0 then fmtInt (ascii "h" ++ w) u else w
          else w) := by
    split_ifs
    · exact h0
    · exact fmtFrac_fmtInt_endsInS (ascii "ns") d.natAbs 0 hns
    · exact fmtFrac_fmtInt_endsInS ([0xC2, 0xB5] ++ ascii "s") d.natAbs 3 hus
    · exact fmtFrac_fmtInt_endsInS (ascii "ms") d.natAbs 6 hms
    · obtain ⟨p, hp⟩ := fmtFrac_suffix (ascii "s") d.natAbs 9
      rcases hf : fmtFrac (ascii "s") d.natAbs 9 with ⟨w, u⟩
      rw [hf] at hp
      simp only [] at hp ⊢
      subst hp
      have hw : EndsInS (fmtInt (p ++ ascii "s") (u % 60)) := (hs.prepend p).prepend _
      split_ifs
      · exact ((hw.prepend _).prepend _).prepend _ |>.prepend _
      · exact (hw.prepend _).prepend _
      · exact hw
  unfold Duration.String
  simp only []
  by_cases hd : d < 0
  · rw [if_pos hd]; exact body.prepend _
  · rw [if_neg hd]; exact body

/-- C11 fails as stated: 359999 s is one second short of 100 hours, so it
takes the hour branch and is not rendered as `"99h+"`. -/
theorem formatDuration_below_cap :
    359999 * Second < 100 * Hour ∧
      formatDuration (359999 * Second) = ascii "100h0m0s" ∧
      formatDuration (359999 * Second) ≠ ascii "99h+" := by
  decide

/-- C11, amended: `formatDuration` returns `"99h+"` for exactly the durations
of at least 100 hours (360000 s and more, not 359999 s); the text for 3661 s
begins with the hour and the minute of the duration rounded to the minute,
`1h1m`, and the text for 45 s is `"45s"`. -/
theorem formatDuration_cases :
    (∀ d : Duration, formatDuration d = ascii "99h+" ↔ d ≥ 100 * Hour) ∧
      Duration.Round (3661 * Second) Minute = Hour + Minute ∧
      (formatDuration (3661 * Second)).take 4 = ascii "1h1m" ∧
      formatDuration (45 * Second) = ascii "45s" := by
  refine ⟨?_, by decide, by decide, by decide⟩
  intro d
  constructor
  · intro h
    by_contra hd
    have hne : ∀ x : Duration, Duration.String x ≠ ascii "99h+" := by
      intro x hx
      have := (Duration_String_endsInS x).getLast?
      rw [hx] at this
      exact absurd this (by decide)
    unfold formatDuration at h
    rw [if_neg hd] at h
    split_ifs at h
    · exact hne _ h
    · exact hne _ h
  · intro h
    unfold formatDuration
    rw [if_pos h]

/-- C17, evaluated: a duration of one hour is rendered as `"1h0m0s"`, with
three units. -/
theorem formatDuration_three_units :
    (0 : Int) ≤ 3600 * Second ∧
      formatDuration (3600 * Second) = Duration.String (Duration.Round (3600 * Second) Minute) ∧
      formatDuration (3600 * Second) = ascii "1h0m0s" ∧
      unitCount (formatDuration (3600 * Second)) = 3 := by
  decide


/-! ## The right block of a stopped bar -/

/-- C12: for every stopped bar whose humanized `maxValue` has at most 6 bytes,
the right block built by `String` is the humanized `maxValue` padded on the
left with spaces to 6 bytes, followed by `7 + 10 + 8 = 25` spaces and nothing
else: no current value, no rate, no time left. -/
theorem suf_of_stopped (b : Bar) (env : Env) (hstop : ¬ Time.IsZero b.stopped)
    (hlen : (env.HumanBytes b.maxValue).length ≤ 6) :
    b.suf env = some (List.replicate (6 - (env.HumanBytes b.maxValue).length) 0x20 ++
      env.HumanBytes b.maxValue ++ List.replicate (7 + 10 + 8) 0x20) := by
  have h6 : ¬ (6 - ((env.HumanBytes b.maxValue).length : Int) < 0) := by omega
  have hn : (6 - ((env.HumanBytes b.maxValue).length : Int)).toNat
      = 6 - (env.HumanBytes b.maxValue).length := by omega
  have hsp : ∀ k : Nat, (List.replicate k (ascii " ")).flatten = List.replicate k 0x20 := by
    intro k
    induction k with
    | zero => rfl
    | succ k ih => rw [List.replicate_succ, List.flatten_cons, ih]; rfl
  unfold Bar.suf strings.Repeat
  simp [hstop, h6, hn, hsp]
  decide

theorem suf_of_stopped_witness :
    (¬ Time.IsZero completedBar.stopped ∧ (env80.HumanBytes completedBar.maxValue).length ≤ 6) ∧
      completedBar.suf env80 =
        some (List.replicate (6 - (env80.HumanBytes completedBar.maxValue).length) 0x20 ++
          env80.HumanBytes completedBar.maxValue ++ List.replicate (7 + 10 + 8) 0x20) :=
  ⟨by decide, suf_of_stopped completedBar env80 (by decide) (by decide)⟩

/-! ## The bar interior -/

theorem truncQ_neg (q : ℚ) : truncQ (-q) = -truncQ q := by
  unfold truncQ
  rw [Rat.neg_num, Rat.neg_den, Int.neg_tdiv]

theorem truncQ_bounds_nonpos (q : ℚ) (f : Int) (h0 : q ≤ 0) (h1 : (f : ℚ) ≤ q) :
    f ≤ truncQ q ∧ truncQ q ≤ 0 := by
  have h := truncQ_bounds (-q) (-f) (by linarith) (by push_cast; linarith)
  rw [truncQ_neg] at h
  constructor <;> omega

theorem filled_eq_truncQ (b : Bar) (env : Env) (f : Int)
    (hlo : -(2 ^ 63) ≤ truncQ ((f : ℚ) * b.percent / 100))
    (hhi : truncQ ((f : ℚ) * b.percent / 100) ≤ 2 ^ 63 - 1) :
    b.filled env f = truncQ ((f : ℚ) * b.percent / 100) := by
  unfold Bar.filled F64.toInt64
  simp only []
  rw [if_pos ⟨hlo, hhi⟩]

theorem midOf_empty (f n : Int) (hn : n ≤ 0) (hf : f - n ≤ 0) :
    midOf f n = some (glyphLeft ++ glyphRight) := by
  unfold midOf
  have e1 : ¬ n > 0 := by omega
  have e2 : ¬ f - n > 0 := by omega
  simp [e1, e2]

/-- C15: for every bar with `0 ≤ percent ≤ 100` and every terminal width for
which the interior width `f = terminalWidth - len(pre) - len(suf) - 3` is at
most 0 (and is an `int`), `String` does not fail and writes neither fill nor
padding: the line is `pre`, the two boundary glyphs with nothing between
them, then `suf`. -/
theorem String_of_narrow (b : Bar) (env : Env) (pre suf : GoString)
    (hpre : b.pre env = some pre) (hsuf : b.suf env = some suf)
    (hf : interior env pre suf ≤ 0) (hint : -(2 ^ 63) ≤ interior env pre suf)
    (hp : 0 ≤ b.percent ∧ b.percent ≤ 100) :
    b.String env = some (pre ++ (glyphLeft ++ glyphRight) ++ suf) := by
  obtain ⟨hp0, hp1⟩ := hp
  have hfq : ((interior env pre suf : Int) : ℚ) ≤ 0 := by exact_mod_cast hf
  have hq0 : ((interior env pre suf : Int) : ℚ) * b.percent / 100 ≤ 0 := by
    rw [div_le_iff₀ (by norm_num : (0 : ℚ) < 100)]
    nlinarith
  have hq1 : ((interior env pre suf : Int) : ℚ)
      ≤ ((interior env pre suf : Int) : ℚ) * b.percent / 100 := by
    rw [le_div_iff₀ (by norm_num : (0 : ℚ) < 100)]
    nlinarith
  obtain ⟨hn1, hn0⟩ := truncQ_bounds_nonpos _ _ hq0 hq1
  have hn := filled_eq_truncQ b env (interior env pre suf) (by omega) (by omega)
  have hmid := midOf_empty (interior env pre suf) (b.filled env (interior env pre suf))
    (by rw [hn]; exact hn0) (by rw [hn]; omega)
  unfold Bar.String
  rw [hpre, hsuf]
  simp only [Option.bind_eq_bind, Option.some_bind, hmid, Option.pure_def]

theorem String_of_narrow_witness :
    ((NewBar [] 1000 0 1).pre { env80 with GetSize := some 30 } = some (ascii "  0%") ∧
        (NewBar [] 1000 0 1).suf { env80 with GetSize := some 30 }
          = some (ascii "   0 B/1000 B,    0 B/s,     0s") ∧
        interior { env80 with GetSize := some 30 } (ascii "  0%")
          (ascii "   0 B/1000 B,    0 B/s,     0s") ≤ 0 ∧
        -(2 ^ 63) ≤ interior { env80 with GetSize := some 30 } (ascii "  0%")
          (ascii "   0 B/1000 B,    0 B/s,     0s") ∧
        (0 ≤ (NewBar [] 1000 0 1).percent ∧ (NewBar [] 1000 0 1).percent ≤ 100)) ∧
      (NewBar [] 1000 0 1).String { env80 with GetSize := some 30 } =
        some (ascii "  0%" ++ (glyphLeft ++ glyphRight) ++
          ascii "   0 B/1000 B,    0 B/s,     0s") :=
  ⟨by decide!, String_of_narrow (NewBar [] 1000 0 1) { env80 with GetSize := some 30 }
    (ascii "  0%") (ascii "   0 B/1000 B,    0 B/s,     0s") (by decide!) (by decide!)
    (by decide) (by decide) (by decide!)⟩

/-- C20: for every bar with `maxValue > 0` and `0 ≤ currentValue ≤ maxValue`
and every interior width `f ≥ 0` (an `int`), the filled width `n` of `String`,
the product `f * percent / 100` taken exactly and truncated, satisfies
`0 ≤ n ≤ f`, is 0 when `currentValue = 0` and `f` when `currentValue =
maxValue`; the interior is `n` full blocks followed by `f - n` spaces, `f`
cells in all. -/
theorem filled_within_interior (b : Bar) (env : Env) (f : Int) (hmax : 0 < b.maxValue)
    (hcur : 0 ≤ b.currentValue ∧ b.currentValue ≤ b.maxValue)
    (hf : 0 ≤ f) (hint : f ≤ 2 ^ 63 - 1) :
    (0 ≤ b.filled env f ∧ b.filled env f ≤ f) ∧
      (b.currentValue = 0 → b.filled env f = 0) ∧
      (b.currentValue = b.maxValue → b.filled env f = f) ∧
      midOf f (b.filled env f) = some (glyphLeft ++
        (List.replicate (b.filled env f).toNat glyphFull).flatten ++
        (List.replicate (f - b.filled env f).toNat (ascii " ")).flatten ++ glyphRight) ∧
      ((b.filled env f).toNat : Int) + ((f - b.filled env f).toNat : Int) = f := by
  obtain ⟨hp0, hp1⟩ := percent_range_of_bounds b hmax hcur.1 hcur.2
  have hfq : (0 : ℚ) ≤ (f : ℚ) := by exact_mod_cast hf
  have hq0 : (0 : ℚ) ≤ (f : ℚ) * b.percent / 100 := by positivity
  have hq1 : (f : ℚ) * b.percent / 100 ≤ (f : ℚ) := by
    rw [div_le_iff₀ (by norm_num : (0 : ℚ) < 100)]
    exact mul_le_mul_of_nonneg_left hp1 hfq
  obtain ⟨hn0, hn1⟩ := truncQ_bounds _ _ hq0 hq1
  have hn := filled_eq_truncQ b env f (by omega) (by omega)
  have hm : (b.maxValue : ℚ) ≠ 0 := by
    have : (0 : ℚ) < (b.maxValue : ℚ) := by exact_mod_cast hmax
    exact ne_of_gt this
  rw [← hn] at hn0 hn1
  refine ⟨⟨hn0, hn1⟩, ?_, ?_, midOf_eq f _ hn0 hn1, by omega⟩
  · intro h0
    rw [hn]
    unfold Bar.percent
    rw [if_pos hmax, h0]
    simp [truncQ]
  · intro h1
    rw [hn]
    unfold Bar.percent
    rw [if_pos hmax, h1, div_self hm]
    have : (f : ℚ) * (1 * 100) / 100 = ((f : Int) : ℚ) := by ring
    rw [this]
    simp [truncQ]

theorem filled_within_interior_witness :
    ((0 : Int) < slowBar.maxValue ∧ (0 ≤ slowBar.currentValue ∧ slowBar.currentValue ≤ slowBar.maxValue) ∧
        (0 : Int) ≤ 42 ∧ (42 : Int) ≤ 2 ^ 63 - 1) ∧
      ((0 ≤ slowBar.filled env80 42 ∧ slowBar.filled env80 42 ≤ 42) ∧
        (slowBar.currentValue = 0 → slowBar.filled env80 42 = 0) ∧
        (slowBar.currentValue = slowBar.maxValue → slowBar.filled env80 42 = 42) ∧
        midOf 42 (slowBar.filled env80 42) = some (glyphLeft ++
          (List.replicate (slowBar.filled env80 42).toNat glyphFull).flatten ++
          (List.replicate (42 - slowBar.filled env80 42).toNat (ascii " ")).flatten ++
          glyphRight) ∧
        ((slowBar.filled env80 42).toNat : Int) + ((42 - slowBar.filled env80 42).toNat : Int)
          = 42) :=
  ⟨by decide, filled_within_interior slowBar env80 42 (by decide) (by decide) (by decide)
    (by decide)⟩


/-! ## The rate -/

/-- C16, evaluated: on a running bar whose only sample carries the timestamp of
the start, `rate()` divides 10 by a zero elapsed time and returns `+Inf`, not
0; `String` then converts `+Inf` to an integer and panics on the text of the
result (here with the conversion of amd64 and a plain humanizer). -/
theorem rate_divides_by_zero :
    Time.IsZero tiedBar.stopped ∧ tiedBar.buckets = [⟨5, 10⟩] ∧ tiedBar.started = 5 ∧
      Duration.Seconds (Time.Sub 5 tiedBar.started) = F64.fin 0 ∧
      tiedBar.rate = F64.posInf ∧ tiedBar.rate ≠ F64.fin 0 ∧
      tiedBar.String env80 = none := by
  decide!

/-! ## The throttle -/

theorem throttle_iff (l : List bucket) (t : Time) :
    (l.length = 0 ∨ Time.Since t (l.getLastD ⟨0, 0⟩).updated > Second) ↔
      (l = [] ∨ ∃ last, l.getLast? = some last ∧ last.updated + Second < t) := by
  unfold Time.Since
  rw [Sub_gt_Second, List.length_eq_zero, List.getLastD_eq_getLast?]
  constructor
  · rintro (h | h)
    · exact Or.inl h
    · cases hl : l.getLast? with
      | none => exact Or.inl (List.getLast?_eq_none_iff.1 hl)
      | some last =>
        rw [hl] at h
        exact Or.inr ⟨last, rfl, h⟩
  · rintro (h | ⟨last, hl, h⟩)
    · exact Or.inl h
    · right
      rw [hl]
      exact h

theorem clamp_eq_min (v m : Int) : (if v ≥ m then m else v) = min v m := by
  split_ifs with h
  · exact (min_eq_right h).symm
  · exact (min_eq_left (le_of_lt (not_le.1 h))).symm

theorem Set_buckets_cases (b : Bar) (v : Int) (tStop tSince tAppend : Time) :
    ((b.buckets = [] ∨ ∃ last, b.buckets.getLast? = some last ∧ last.updated + Second < tSince) →
      (b.Set v tStop tSince tAppend).buckets =
        if (b.buckets.length : Int) + 1 > b.maxBuckets then
          (b.buckets ++ [bucket.mk tAppend (min v b.maxValue)]).drop 1
        else b.buckets ++ [bucket.mk tAppend (min v b.maxValue)]) ∧
    (¬ (b.buckets = [] ∨ ∃ last, b.buckets.getLast? = some last ∧ last.updated + Second < tSince) →
      (b.Set v tStop tSince tAppend).buckets = b.buckets) := by
  constructor
  · intro h
    rw [Set_buckets, if_pos ((throttle_iff _ _).2 h), clamp_eq_min]
    simp only [List.length_append, List.length_singleton, Nat.cast_add, Nat.cast_one]
  · intro h
    rw [Set_buckets, if_neg (fun x => h ((throttle_iff _ _).1 x))]

/-- C18: for every state, value `v` and clock readings, `Set(v)` appends the
sample `(now, min(v, maxValue))` when the history is empty or the clock is more
than one second after the timestamp of the last entry (and then drops the
oldest entry if the history has grown past `maxBuckets`); otherwise it leaves
the history as it was. With room for at least one entry the appended sample is
the last entry afterwards. For a call made at one instant `now`, `tSince` and
`tAppend` are both `now`. -/
theorem Set_appends_iff_throttle_open (b : Bar) (v : Int) (tStop tSince tAppend : Time) :
    ((b.buckets = [] ∨ ∃ last, b.buckets.getLast? = some last ∧ last.updated + Second < tSince) →
      (b.Set v tStop tSince tAppend).buckets =
          (if (b.buckets.length : Int) + 1 > b.maxBuckets then
            (b.buckets ++ [bucket.mk tAppend (min v b.maxValue)]).drop 1
          else b.buckets ++ [bucket.mk tAppend (min v b.maxValue)]) ∧
        (1 ≤ b.maxBuckets →
          (b.Set v tStop tSince tAppend).buckets.getLast?
            = some (bucket.mk tAppend (min v b.maxValue)))) ∧
    (¬ (b.buckets = [] ∨ ∃ last, b.buckets.getLast? = some last ∧ last.updated + Second < tSince) →
      (b.Set v tStop tSince tAppend).buckets = b.buckets) := by
  obtain ⟨h1, h2⟩ := Set_buckets_cases b v tStop tSince tAppend
  refine ⟨fun h => ⟨h1 h, fun hcap => ?_⟩, h2⟩
  rw [h1 h]
  split_ifs with hl
  · cases hb : b.buckets with
    | nil => rw [hb] at hl; simp at hl; omega
    | cons x l => simp [List.getLast?_concat]
  · exact List.getLast?_concat _

theorem Set_appends_iff_throttle_open_witness :
    ((NewBar [] 100 0 Second).buckets = [] ∧ (1 : Int) ≤ (NewBar [] 100 0 Second).maxBuckets) ∧
      (((NewBar [] 100 0 Second).Set 10 (2 * Second) (2 * Second) (2 * Second)).buckets
          = [⟨2 * Second, 10⟩] ∧
        (((NewBar [] 100 0 Second).Set 10 (2 * Second) (2 * Second) (2 * Second)).Set 20
          (2 * Second + 5) (2 * Second + 5) (2 * Second + 5)).buckets = [⟨2 * Second, 10⟩]) :=
  ⟨by decide,
    ((Set_appends_iff_throttle_open (NewBar [] 100 0 Second) 10 (2 * Second) (2 * Second)
      (2 * Second)).1 (by decide)).1.trans (by decide),
    ((Set_appends_iff_throttle_open
      ((NewBar [] 100 0 Second).Set 10 (2 * Second) (2 * Second) (2 * Second)) 20
      (2 * Second + 5) (2 * Second + 5) (2 * Second + 5)).2 (by decide)).trans (by decide)⟩


/-! ## The span of the history -/

end progress
